import Mathlib

/-
  Shallow embedding of the Context Window Management & Retrieval-Augmented
  Memory core of the `simpleai` Go library.

  Modelling conventions:
  * Go `int` is modelled as `Int`; list indices/lengths are `Nat` and are cast
    to `Int` where the Go code compares them to configured `int` limits.
  * Go `float64` is modelled as `ℚ` (exact arithmetic); only branch structure
    and the exact-zero guards of the similarity code are at issue here.
  * Go slices are Lean lists; `s[k:]` is `List.drop k`, `s[:k]` is `List.take k`.
  * Fallible collaborators (request handler, summarizer) are modelled as
    functions into `Except String _`; a `nil` Go interface field is `Option`.
  * The parallel slices `messages`/`tokenCounts` of `memory.Simple` are kept
    as two parallel lists, exactly as in the source; loops that index both in
    lockstep are modelled by simultaneous structural recursion (the Go code
    would panic if the tally were shorter, a state its invariant rules out).
-/

namespace SimpleAI

/- Go: `type Role string` with constants (types.go). -/
abbrev Role := String

def RoleSystem : Role := "system"
def RoleUser : Role := "user"
def RoleAssistant : Role := "assistant"

/- Go: `type Message struct { Role Role; Content string }` -/
structure Message where
  role : Role
  content : String
deriving DecidableEq

/- Go: `type Usage struct` (types.go). -/
structure Usage where
  PromptTokens : Int := 0
  CompletionTokens : Int := 0
  TotalTokens : Int := 0
deriving DecidableEq

/- Go: `type Request struct` (types.go). -/
structure Request where
  Messages : List Message
  Model : String := ""
  MaxTokens : Int := 0
  Temperature : ℚ := 0
  TopP : ℚ := 0
  Stop : List String := []
  Stream : Bool := false
  SystemPrompt : String := ""
deriving DecidableEq

/- Go: `type Response struct` (types.go). -/
structure Response where
  Content : String
  Model : String := ""
  FinishReason : String := ""
  Usage : Usage := {}
deriving DecidableEq

namespace Memory

/- Go: `memory.MemoryConfig`.  `TokenCounter` is an interface with a single
   pure method `Count : string -> int`; it is modelled as the function itself
   (the constructor substitutes a default when it is nil, so it is total). -/
structure MemoryConfig where
  MaxTokens : Int
  MaxMessages : Int
  SummarizeAfter : Int
  TokenCounter : String → Int

/- Go: `memory.Summarizer` interface: `Summarize(ctx, []Message) (string, error)`. -/
abbrev Summarizer := List Message → Except String String

/- Go: the mutable fields of `memory.Simple` (config and summarizer are held
   separately as parameters of each operation). -/
structure SimpleState where
  messages : List Message
  tokenCounts : List Int
  totalTokens : Int
  summary : String

/- Go: `NewSimple` — empty buffer. -/
def newSimple : SimpleState :=
  { messages := [], tokenCounts := [], totalTokens := 0, summary := "" }

/- Go: the `for s.totalTokens > s.config.MaxTokens && len(s.messages) > 0`
   loop of `Simple.trimToLimits`, dropping the oldest turn and its tally
   entry each iteration. -/
def trimTokensLoop (maxTokens : Int) :
    List Message → List Int → Int → List Message × List Int × Int
  | m :: ms, c :: cs, tot =>
      if tot > maxTokens then trimTokensLoop maxTokens ms cs (tot - c)
      else (m :: ms, c :: cs, tot)
  | ms, cs, tot => (ms, cs, tot)

/- Go: the count-based first phase of `Simple.trimToLimits`. -/
def countTrim (cfg : MemoryConfig) (st : SimpleState) : SimpleState :=
  if cfg.MaxMessages > 0 ∧ (st.messages.length : Int) > cfg.MaxMessages then
    let excess := st.messages.length - cfg.MaxMessages.toNat
    { st with
      messages := st.messages.drop excess
      tokenCounts := st.tokenCounts.drop excess
      totalTokens := st.totalTokens - (st.tokenCounts.take excess).sum }
  else st

/- Go: the cost-based second phase of `Simple.trimToLimits`. -/
def costTrim (cfg : MemoryConfig) (st : SimpleState) : SimpleState :=
  let r := trimTokensLoop cfg.MaxTokens st.messages st.tokenCounts st.totalTokens
  { st with messages := r.1, tokenCounts := r.2.1, totalTokens := r.2.2 }

/- Go: `Simple.trimToLimits` — count trim, then cost trim, in that order. -/
def trimToLimits (cfg : MemoryConfig) (st : SimpleState) : SimpleState :=
  costTrim cfg (countTrim cfg st)

/- Go: `Simple.summarizeOldMessages`. -/
def summarizeOldMessages (cfg : MemoryConfig) (summarizer : Option Summarizer)
    (st : SimpleState) : SimpleState :=
  match summarizer with
  | none => st
  | some summ =>
    if (st.messages.length : Int) ≤ cfg.SummarizeAfter / 2 then st
    else
      let splitPoint := st.messages.length / 2
      let toSummarize := st.messages.take splitPoint
      match summ toSummarize with
      | .error _ => st
      | .ok summary =>
        { messages := st.messages.drop splitPoint
          tokenCounts := st.tokenCounts.drop splitPoint
          totalTokens := st.totalTokens - (st.tokenCounts.take splitPoint).sum
          summary := if st.summary ≠ "" then st.summary ++ "\n\n" ++ summary
                     else summary }

/- Go: `Simple.Add` (always returns nil error; a summarization error is
   swallowed, which `summarizeOldMessages` models by returning the state
   unchanged). -/
def simpleAdd (cfg : MemoryConfig) (summarizer : Option Summarizer)
    (st : SimpleState) (msg : Message) : SimpleState :=
  let tokenCount := cfg.TokenCounter msg.content
  let st1 : SimpleState :=
    { st with
      messages := st.messages ++ [msg]
      tokenCounts := st.tokenCounts ++ [tokenCount]
      totalTokens := st.totalTokens + tokenCount }
  let st2 :=
    match summarizer with
    | some _ =>
        if cfg.SummarizeAfter > 0 then
          if (st1.messages.length : Int) > cfg.SummarizeAfter then
            summarizeOldMessages cfg summarizer st1
          else st1
        else st1
    | none => st1
  trimToLimits cfg st2

/- The synthetic turn `GetMessages` builds from the standing summary. -/
def summaryTurn (summary : String) : Message :=
  { role := RoleSystem, content := "[Previous conversation summary]\n" ++ summary }

/- Go: the `for i := len(s.messages) - 1; i >= 0; i--` loop of
   `Simple.GetMessages`, fed with the (message, tally) pairs in reverse
   (most recent first); each accepted turn is prepended to `result`. -/
def getMessagesLoop (maxTokens : Int) :
    List (Message × Int) → Int → List Message → List Message × Int
  | [], tokenCount, result => (result, tokenCount)
  | (m, c) :: rest, tokenCount, result =>
      if tokenCount + c > maxTokens then (result, tokenCount)
      else getMessagesLoop maxTokens rest (tokenCount + c) (m :: result)

/- Go: `Simple.GetMessages`. -/
def getMessages (cfg : MemoryConfig) (st : SimpleState) (maxTokens : Int) :
    List Message :=
  let maxT := if maxTokens ≤ 0 then cfg.MaxTokens else maxTokens
  let start : List Message × Int :=
    if st.summary ≠ "" then
      let summaryTokens := cfg.TokenCounter st.summary
      if summaryTokens < maxT then ([summaryTurn st.summary], summaryTokens)
      else ([], 0)
    else ([], 0)
  (getMessagesLoop maxT ((st.messages.zip st.tokenCounts).reverse)
    start.2 start.1).1

/- Go: `Simple.Clear`. -/
def clearSimple (_st : SimpleState) : SimpleState := newSimple

/- Go: `Simple.Count`, `Simple.TokenCount`, `Simple.Summary`. -/
def simpleCount (st : SimpleState) : Nat := st.messages.length
def simpleTokenCount (st : SimpleState) : Int := st.totalTokens
def simpleSummary (st : SimpleState) : String := st.summary

/- The CostTally invariant of the spec: one tally entry per stored turn, and
   the cached total equal to the tally's sum. -/
def simpleInvariant (st : SimpleState) : Prop :=
  st.tokenCounts.length = st.messages.length ∧
  st.totalTokens = st.tokenCounts.sum

end Memory

namespace Chat

/- Go: `AutocompactConfig` (chat.go).  The optional custom `Summarizer` field
   and the default model-call summarization are modelled together by the
   `summarize` oracle passed to the operations below, since both are a single
   fallible call `List Message -> (string, error)` made with the lock
   released. -/
structure AutocompactConfig where
  Threshold : Int
  KeepRecent : Int

/- Go: the fields of `Chat` (chat.go).  The `client` is abstracted as the
   request handler passed to `send`; `mu` is a lock, modelled separately as
   an event trace (see `LockEv` below). -/
structure ChatState where
  system : String
  history : List Message
  historyLimit : Int
  maxTokens : Int
  tokenCounter : Option (String → Int)
  autocompact : Option AutocompactConfig
  conversationSummary : String

/- Go: `Chat.buildMessages`. -/
def buildMessages (c : ChatState) : List Message :=
  let head : List Message :=
    if c.system ≠ "" then
      let systemContent :=
        if c.conversationSummary ≠ "" then
          c.system ++ "\n\n[Previous conversation summary: " ++
            c.conversationSummary ++ "]"
        else c.system
      [{ role := RoleSystem, content := systemContent }]
    else if c.conversationSummary ≠ "" then
      [{ role := RoleSystem
         content := "[Previous conversation summary: " ++
           c.conversationSummary ++ "]" }]
    else []
  head ++ c.history

/- Go: `Chat.countHistoryTokens`. -/
def countHistoryTokens (counter : String → Int) (history : List Message) : Int :=
  (history.map (fun m => counter m.content)).sum

/- Go: the `for c.countHistoryTokens() > c.maxTokens && len(c.history) > 1`
   loop of `Chat.trimHistory`, dropping the oldest turn each iteration. -/
def chatTokenTrim (counter : String → Int) (maxTokens : Int) :
    List Message → List Message
  | [] => []
  | [m] => [m]
  | m1 :: m2 :: rest =>
      if countHistoryTokens counter (m1 :: m2 :: rest) > maxTokens then
        chatTokenTrim counter maxTokens (m2 :: rest)
      else m1 :: m2 :: rest

/- Go: `Chat.compactHistory`.  The summarization outcome (custom summarizer
   or default model call, both performed with the lock released) is supplied
   by the `summarize` oracle. -/
def compactHistory (c : ChatState)
    (summarize : List Message → Except String String) : ChatState :=
  match c.autocompact with
  | none => c
  | some ac =>
    if (c.history.length : Int) < ac.Threshold then c
    else if ac.KeepRecent ≥ (c.history.length : Int) then c
    else
      let oldMessages := c.history.take (c.history.length - ac.KeepRecent.toNat)
      let recentMessages := c.history.drop (c.history.length - ac.KeepRecent.toNat)
      match summarize oldMessages with
      | .error _ => { c with history := recentMessages }
      | .ok summaryContent =>
        { c with
          history := recentMessages
          conversationSummary :=
            if c.conversationSummary ≠ "" then
              c.conversationSummary ++ "\n\n" ++ summaryContent
            else summaryContent }

/- Go: the non-compacting tail of `Chat.trimHistory` (count trim, then the
   token-count loop guarded by `maxTokens > 0 && tokenCounter != nil`). -/
def trimPlain (c : ChatState) : ChatState :=
  let c1 :=
    if c.historyLimit > 0 ∧ (c.history.length : Int) > c.historyLimit then
      { c with history := c.history.drop (c.history.length - c.historyLimit.toNat) }
    else c
  if c1.maxTokens > 0 then
    match c1.tokenCounter with
    | some counter =>
        { c1 with history := chatTokenTrim counter c1.maxTokens c1.history }
    | none => c1
  else c1

/- Go: `Chat.trimHistory`. -/
def trimHistory (c : ChatState)
    (summarize : List Message → Except String String) : ChatState :=
  match c.autocompact with
  | some ac =>
      if (c.history.length : Int) ≥ ac.Threshold then compactHistory c summarize
      else trimPlain c
  | none => trimPlain c

/- Go: the request `Chat.Send` builds after the speculative append. -/
def sendRequest (c : ChatState) (message : String) : Request :=
  let c1 : ChatState :=
    { c with history := c.history ++ [{ role := RoleUser, content := message }] }
  { Messages := buildMessages c1, SystemPrompt := c1.system }

/- Go: `Chat.Send`.  `handler` is `c.client.Complete`; `summarize` is the
   compaction oracle (unused unless compaction triggers). -/
def send (c : ChatState) (message : String)
    (handler : Request → Except String Response)
    (summarize : List Message → Except String String) :
    Except String Response × ChatState :=
  let c1 : ChatState :=
    { c with history := c.history ++ [{ role := RoleUser, content := message }] }
  match handler (sendRequest c message) with
  | .error e => (.error e, { c1 with history := c1.history.dropLast })
  | .ok resp =>
      let c2 : ChatState :=
        { c1 with
          history := c1.history ++ [{ role := RoleAssistant, content := resp.Content }] }
      (.ok resp, trimHistory c2 summarize)

/- Go: `Chat.History` (returns a copy), `Chat.Clear`, `Chat.Summary`. -/
def chatHistory (c : ChatState) : List Message := c.history

def chatClear (c : ChatState) : ChatState := { c with history := [] }

def chatSummary (c : ChatState) : String := c.conversationSummary

/- Lock-discipline model for `Chat.Send` / `Chat.Stream`: the sequence of
   mutex operations and external-handler invocations each method performs,
   transcribed from chat.go in program order. -/
inductive LockEv
  | lock
  | unlock
  | extCall
deriving DecidableEq

/- Go `Chat.Send` (success path, no compaction): `c.mu.Lock()` with
   `defer c.mu.Unlock()`, and `c.client.Complete` invoked in between. -/
def sendLockTrace : List LockEv := [.lock, .extCall, .unlock]

/- Go `Chat.Stream` (success path): `c.mu.Lock()`; append; `c.mu.Unlock()`;
   `c.client.Stream(...)`; then the accumulator goroutine re-locks around the
   final history append and unlocks. -/
def streamLockTrace : List LockEv := [.lock, .unlock, .extCall, .lock, .unlock]

/- Whether some external call in the trace happens while the lock depth is
   positive. -/
def extCallWhileLocked : List LockEv → Int → Bool
  | [], _ => false
  | .lock :: rest, d => extCallWhileLocked rest (d + 1)
  | .unlock :: rest, d => extCallWhileLocked rest (d - 1)
  | .extCall :: rest, d => decide (0 < d) || extCallWhileLocked rest d

end Chat

namespace Embedding

/- Go: `embedding.Document`.  The `Metadata map[string]any` only ever holds
   string values in this codebase (`"role"`); it is modelled as an
   association list of strings. -/
structure Document where
  ID : String
  Content : String
  Embedding : List ℚ
  Metadata : List (String × String) := []
deriving DecidableEq

/- Go: the Newton iteration `sqrt` helper of embedding.go (10 fixed steps). -/
def newtonStep : Nat → ℚ → ℚ → ℚ
  | 0, _, z => z
  | n + 1, x, z => newtonStep n x (z - (z * z - x) / (2 * z))

def sqrtNewton (x : ℚ) : ℚ :=
  if x ≤ 0 then 0 else newtonStep 10 x (x / 2)

/- The running sum of squares the `CosineSimilarity` loop computes for one
   vector (its squared magnitude). -/
def normSq (v : List ℚ) : ℚ := (v.map (fun x => x * x)).sum

/- Go: `embedding.CosineSimilarity`.  The single Go loop over `i in range a`
   accumulates the dot product and both squared norms; it is modelled by the
   three corresponding sums. -/
def cosineSimilarity (a b : List ℚ) : ℚ :=
  if a.length ≠ b.length then 0
  else
    let dotProduct := ((a.zip b).map (fun p => p.1 * p.2)).sum
    let normA := normSq a
    let normB := normSq b
    if normA = 0 ∨ normB = 0 then 0
    else dotProduct / (sqrtNewton normA * sqrtNewton normB)

end Embedding

namespace Rag

open Embedding

/- Go: `rag.SearchResult`. -/
structure SearchResult where
  document : Document
  similarity : ℚ
deriving DecidableEq

/- Go: `rag.MemoryStore.Search` on a store holding `documents`.  `sort.Slice`
   with the comparator `results[i].Similarity > results[j].Similarity` is an
   unspecified-order in-place sort; it is modelled by `mergeSort` with the
   matching ≥ ordering (the claims proved below depend only on membership,
   which any permutation yields).  `topK` is a Go `int`; it is modelled as a
   `Nat` (Go panics on a negative `topK`, outside every claim here), and the
   `if topK > len(results)` clamp is `List.take`'s own clamping. -/
def memoryStoreSearch (documents : List Document) (queryEmbedding : List ℚ)
    (topK : Nat) : List SearchResult :=
  if documents.isEmpty then []
  else
    let results := documents.map
      (fun doc => SearchResult.mk doc (cosineSimilarity queryEmbedding doc.Embedding))
    let sorted := results.mergeSort (fun x y => decide (y.similarity ≤ x.similarity))
    sorted.take topK

end Rag

namespace RagMemory

/- Go: the dedup key of `RAGMemory.GetRelevant`: the content, truncated to
   its first 100 characters when longer. -/
def dedupKey (content : String) : String :=
  if content.length > 100 then content.take 100 else content

/- Go: one of the two identical dedup loops of `RAGMemory.GetRelevant`
   (`seen` models the `map[string]bool`, holding the keys marked true). -/
def mergeDedupLoop (seen : List String) (result : List Message) :
    List Message → List String × List Message
  | [] => (seen, result)
  | msg :: rest =>
      let key := dedupKey msg.content
      if key ∈ seen then mergeDedupLoop seen result rest
      else mergeDedupLoop (key :: seen) (result ++ [msg]) rest

/- Go: the merge phase of `RAGMemory.GetRelevant`: recent messages first,
   then the RAG results, sharing one `seen` set. -/
def getRelevantMerge (recentMsgs relevantMsgs : List Message) : List Message :=
  let r1 := mergeDedupLoop [] [] recentMsgs
  (mergeDedupLoop r1.1 r1.2 relevantMsgs).2

/- Go: `RAGMemory.GetRelevant` after the recent-list fetch: a failing
   `rag.Retrieve` falls back to the recent list alone. -/
def getRelevant (recentMsgs : List Message)
    (retrieved : Except String (List Message)) : List Message :=
  match retrieved with
  | .error _ => recentMsgs
  | .ok relevantMsgs => getRelevantMerge recentMsgs relevantMsgs

/- Modelled from the spec (refinement reference for the C7 merge contract):
   keep, for each dedup key, only the first-seen message, in input order. -/
def keepFirstByKey : List Message → List Message
  | [] => []
  | m :: rest =>
      m :: keepFirstByKey
        (rest.filter (fun m2 => decide (dedupKey m2.content ≠ dedupKey m.content)))
termination_by l => l.length
decreasing_by
  simp only [List.length_cons]
  exact Nat.lt_succ_of_le (List.length_filter_le _ _)

end RagMemory

/- Concrete fixtures used by claim witnesses and counterexamples. -/

/- Turns `m1`, `m2`, ... each of which the demo token counters price at 10. -/
def demoMsg (i : Nat) : Message := ⟨RoleUser, "m" ++ toString i⟩

/- MaxTokens=1000, MaxMessages=3, flat cost 10 (C5 count-limit example). -/
def demoCfgCount : Memory.MemoryConfig := ⟨1000, 3, 0, fun _ => 10⟩

/- MaxTokens=25, MaxMessages=0 (unlimited), flat cost 10 (C5 cost example). -/
def demoCfgCost : Memory.MemoryConfig := ⟨25, 0, 0, fun _ => 10⟩

/- Character-count estimator, ample budget (C1 fixtures). -/
def cexCfg : Memory.MemoryConfig := ⟨100, 0, 0, fun s => (s.length : Int)⟩

/- One stored turn of cost 1 plus a standing summary (C1 fixtures). -/
def cexState : Memory.SimpleState := ⟨[⟨RoleUser, "hi"⟩], [1], 1, "s"⟩

/- A session that accumulated a standing summary (C3 counterexample). -/
def cexClearState : Chat.ChatState := ⟨"", [⟨RoleUser, "x"⟩], 100, 0, none, none, "old"⟩

/- A session at its autocompaction threshold: Threshold=5, KeepRecent=2,
   five turns, standing summary "S" (C4 witness). -/
def demoCompactState : Chat.ChatState :=
  ⟨"", [1, 2, 3, 4, 5].map demoMsg, 100, 0, none, some ⟨5, 2⟩, "S"⟩

/- A session whose sole surviving turn costs 100 against maxTokens=1
   (C10 witness). -/
def demoTrimState : Chat.ChatState :=
  ⟨"", [⟨RoleUser, "a"⟩, ⟨RoleUser, "b"⟩], 100, 1, some (fun _ => 100), none, ""⟩

end SimpleAI

/- ===================== Theorems =====================
   (the C1 loop lemma and budget theorem are stated over the `Memory`
   embedding; the remaining claims follow component by component) -/

namespace SimpleAI

open Memory Chat Rag RagMemory Embedding

/-- C3 counterexample: clearing a session that holds the standing summary
"old" leaves `Summary()` equal to "old", not the empty string the claim
requires. -/
theorem chatClear_keeps_summary_cex :
    chatHistory (chatClear cexClearState) = [] ∧
    chatSummary (chatClear cexClearState) ≠ "" :=
  ⟨rfl, by decide⟩

/-- C3 (amended): `Chat.Clear` empties the history, but the standing
conversation summary is left exactly as it was — only the memory buffer's
own `Clear` resets a summary. -/
theorem chatClear_resets_history_only (c : ChatState) :
    chatHistory (chatClear c) = [] ∧
    chatSummary (chatClear c) = chatSummary c :=
  ⟨rfl, rfl⟩

/-- C9: in the lock-operation trace of `Chat.Send` the external request
handler runs while the session mutex is held (the `defer`red unlock only
fires after `Complete` returns), whereas `Chat.Stream` releases the lock
before calling the handler: the required release/reacquire straddle holds
for `Stream` but is violated by `Send`. -/
theorem send_calls_handler_while_locked :
    extCallWhileLocked sendLockTrace 0 = true ∧
    extCallWhileLocked streamLockTrace 0 = false := by
  decide

/-- C2: if the request handler fails, `Send` removes the speculatively
appended user turn, so the history after the failed `Send` equals the
history before it exactly, and the handler's error is returned. -/
theorem send_rollback_on_failure (c : ChatState) (message : String)
    (handler : Request → Except String Response)
    (summarize : List Message → Except String String) (e : String)
    (h : handler (sendRequest c message) = .error e) :
    chatHistory (send c message handler summarize).2 = chatHistory c ∧
    (send c message handler summarize).1 = .error e := by
  unfold send chatHistory
  rw [h]
  exact ⟨List.dropLast_concat, rfl⟩

/-- C2 witness: a concrete failing handler leaves the one-turn history of a
concrete session untouched and surfaces the error. -/
theorem send_rollback_on_failure_witness :
    chatHistory (send cexClearState "hi" (fun _ => .error "boom")
        (fun _ => .ok "") ).2 = chatHistory cexClearState ∧
    (send cexClearState "hi" (fun _ => .error "boom") (fun _ => .ok "")).1
      = .error "boom" :=
  send_rollback_on_failure cexClearState "hi" _ _ "boom" rfl

/-- C4: whenever compaction triggers (autocompaction configured, history
length at least `Threshold`, and `KeepRecent` below the history length) and
the summarization call fails, the history is still truncated to exactly the
`KeepRecent` most recent turns and the standing summary is unchanged. -/
theorem compaction_degrade (c : ChatState) (ac : AutocompactConfig)
    (summarize : List Message → Except String String) (e : String)
    (hac : c.autocompact = some ac)
    (hthr : (c.history.length : Int) ≥ ac.Threshold)
    (hkeep : ac.KeepRecent < (c.history.length : Int))
    (hfail : summarize (c.history.take (c.history.length - ac.KeepRecent.toNat))
      = .error e) :
    (trimHistory c summarize).history
      = c.history.drop (c.history.length - ac.KeepRecent.toNat) ∧
    (trimHistory c summarize).history.length = ac.KeepRecent.toNat ∧
    chatSummary (trimHistory c summarize) = chatSummary c := by
  have hlen : ac.KeepRecent.toNat ≤ c.history.length := by omega
  simp only [trimHistory, hac]
  rw [if_pos hthr]
  simp only [compactHistory, hac]
  rw [if_neg (by omega), if_neg (by omega), hfail]
  refine ⟨rfl, ?_, rfl⟩
  simp only [List.length_drop]
  omega

/-- C4 witness: Threshold=5, KeepRecent=2, five turns, failing summarizer:
after the trim step the history is the 2 newest turns and the standing
summary is still "S". -/
theorem compaction_degrade_witness :
    (trimHistory demoCompactState (fun _ => .error "down")).history
      = [demoMsg 4, demoMsg 5] ∧
    (trimHistory demoCompactState (fun _ => .error "down")).history.length = 2 ∧
    chatSummary (trimHistory demoCompactState (fun _ => .error "down")) = "S" := by
  have h := compaction_degrade demoCompactState ⟨5, 2⟩ (fun _ => .error "down")
    "down" rfl (by decide) (by decide) rfl
  simpa [demoCompactState, demoMsg] using h

/-- C5: the trim-to-limits pass is the count-based trim followed by the
cost-based trim, in that order; with MaxMessages=3, MaxTokens=1000 and five
turns of cost 10 exactly the 3 newest remain, and with MaxMessages=0,
MaxTokens=25 and three turns of cost 10 exactly the last 2 remain. -/
theorem trimToLimits_ordering :
    (∀ cfg st, trimToLimits cfg st = costTrim cfg (countTrim cfg st)) ∧
    (([1, 2, 3, 4, 5].map demoMsg).foldl (simpleAdd demoCfgCount none)
        newSimple).messages = [demoMsg 3, demoMsg 4, demoMsg 5] ∧
    (([1, 2, 3].map demoMsg).foldl (simpleAdd demoCfgCost none)
        newSimple).messages = [demoMsg 2, demoMsg 3] :=
  ⟨fun _ _ => rfl, by decide, by decide⟩

/-- Helper: the chat token-trim loop returns a strict-suffix-or-all of a
nonempty history, never the empty list. -/
theorem chatTokenTrim_suffix (counter : String → Int) (maxT : Int) :
    ∀ l : List Message, l ≠ [] →
      ∃ k, k < l.length ∧ chatTokenTrim counter maxT l = l.drop k := by
  intro l
  induction l with
  | nil => intro h; exact absurd rfl h
  | cons m rest ih =>
    intro _
    cases rest with
    | nil => exact ⟨0, by simp, rfl⟩
    | cons m2 rest2 =>
      by_cases hc : countHistoryTokens counter (m :: m2 :: rest2) > maxT
      · obtain ⟨k', hk', heq⟩ := ih (by simp)
        refine ⟨k' + 1, by simpa using Nat.succ_lt_succ hk', ?_⟩
        rw [chatTokenTrim, if_pos hc, heq]
        rfl
      · exact ⟨0, by simp, by rw [chatTokenTrim, if_neg hc, List.drop_zero]⟩

/-- C10: when autocompaction does not trigger, the session trim step with
`maxTokens > 0` and a token counter set always leaves a nonempty suffix of a
nonempty history — the most recent turn survives even if its cost alone
exceeds `maxTokens`. -/
theorem trim_keeps_newest (c : ChatState)
    (summarize : List Message → Except String String)
    (hnc : ∀ ac, c.autocompact = some ac → (c.history.length : Int) < ac.Threshold)
    (hmax : 0 < c.maxTokens) (hctr : c.tokenCounter.isSome = true)
    (hne : c.history ≠ []) :
    ∃ k, k < c.history.length ∧
      (trimHistory c summarize).history = c.history.drop k := by
  have hplain : trimHistory c summarize = trimPlain c := by
    unfold trimHistory
    cases hca : c.autocompact with
    | none => rfl
    | some ac =>
        simp only
        rw [if_neg (not_le.mpr (hnc ac hca))]
  rw [hplain]
  obtain ⟨counter, hcounter⟩ := Option.isSome_iff_exists.mp hctr
  have hpos : 0 < c.history.length := List.length_pos.mpr hne
  unfold trimPlain
  by_cases hcnt : c.historyLimit > 0 ∧ (c.history.length : Int) > c.historyLimit
  · rw [if_pos hcnt]
    set k1 := c.history.length - c.historyLimit.toNat with hk1
    have hk1lt : k1 < c.history.length := by omega
    rw [if_pos hmax, hcounter]
    obtain ⟨k2, hk2, heq⟩ := chatTokenTrim_suffix counter c.maxTokens
      (c.history.drop k1) (by
        apply List.ne_nil_of_length_pos
        simp only [List.length_drop]
        omega)
    refine ⟨k1 + k2, ?_, ?_⟩
    · have := List.length_drop k1 c.history
      omega
    · simp only [heq, List.drop_drop]
  · rw [if_neg hcnt, if_pos hmax, hcounter]
    obtain ⟨k2, hk2, heq⟩ := chatTokenTrim_suffix counter c.maxTokens c.history hne
    exact ⟨k2, hk2, by simp only [heq]⟩

/-- C10 witness: maxTokens=1, every turn costing 100: trimming a two-turn
history still leaves a suffix, concretely the newest turn alone. -/
theorem trim_keeps_newest_witness :
    ∃ k, k < demoTrimState.history.length ∧
      (trimHistory demoTrimState (fun _ => .ok "")).history
        = demoTrimState.history.drop k :=
  trim_keeps_newest demoTrimState (fun _ => .ok "")
    (by intro ac h; simp [demoTrimState] at h) (by decide) rfl (by decide)

/-- Helper: the cost-based trim loop removes turns and tally entries in
lockstep and keeps the cached total equal to the surviving tally's sum. -/
theorem trimTokensLoop_inv (maxT : Int) :
    ∀ (ms : List Message) (cs : List Int) (tot : Int),
      cs.length = ms.length → tot = cs.sum →
      (trimTokensLoop maxT ms cs tot).2.1.length
          = (trimTokensLoop maxT ms cs tot).1.length ∧
      (trimTokensLoop maxT ms cs tot).2.2
          = (trimTokensLoop maxT ms cs tot).2.1.sum := by
  intro ms
  induction ms with
  | nil =>
      intro cs tot h1 h2
      have hnil : cs = [] := List.length_eq_zero.mp (by simpa using h1)
      subst hnil
      exact ⟨rfl, h2⟩
  | cons m ms ih =>
      intro cs tot h1 h2
      cases cs with
      | nil => simp at h1
      | cons c cs' =>
          rw [trimTokensLoop]
          by_cases h : tot > maxT
          · rw [if_pos h]
            refine ih cs' (tot - c) (by simpa using h1) ?_
            simp only [List.sum_cons] at h2
            omega
          · rw [if_neg h]
            exact ⟨by simpa using h1, h2⟩

/-- Helper: the count-based trim phase preserves the tally invariant. -/
theorem countTrim_inv (cfg : MemoryConfig) (st : SimpleState)
    (h : simpleInvariant st) : simpleInvariant (countTrim cfg st) := by
  obtain ⟨h1, h2⟩ := h
  unfold countTrim
  split_ifs with hc
  · have hs := List.sum_take_add_sum_drop st.tokenCounts
      (st.messages.length - cfg.MaxMessages.toNat)
    constructor
    · simp only [List.length_drop, h1]
    · simp only
      omega
  · exact ⟨h1, h2⟩

/-- Helper: the half-split summarization step preserves the tally
invariant, whatever the summarizer outcome. -/
theorem summarizeOldMessages_inv (cfg : MemoryConfig)
    (summarizer : Option Summarizer) (st : SimpleState)
    (h : simpleInvariant st) :
    simpleInvariant (summarizeOldMessages cfg summarizer st) := by
  obtain ⟨h1, h2⟩ := h
  unfold summarizeOldMessages
  cases summarizer with
  | none => exact ⟨h1, h2⟩
  | some summ =>
      simp only
      by_cases hc : (st.messages.length : Int) ≤ cfg.SummarizeAfter / 2
      · rw [if_pos hc]; exact ⟨h1, h2⟩
      · rw [if_neg hc]
        cases hs : summ (st.messages.take (st.messages.length / 2)) with
        | error e => simp only [hs]; exact ⟨h1, h2⟩
        | ok summary =>
            simp only [hs]
            have hsum := List.sum_take_add_sum_drop st.tokenCounts
              (st.messages.length / 2)
            constructor
            · simp only [List.length_drop, h1]
            · simp only
              omega

/-- Helper: `Add` preserves the tally invariant end to end. -/
theorem simpleAdd_inv (cfg : MemoryConfig) (summarizer : Option Summarizer)
    (st : SimpleState) (msg : Message) (h : simpleInvariant st) :
    simpleInvariant (simpleAdd cfg summarizer st msg) := by
  obtain ⟨h1, h2⟩ := h
  have happ : simpleInvariant
      { st with
        messages := st.messages ++ [msg]
        tokenCounts := st.tokenCounts ++ [cfg.TokenCounter msg.content]
        totalTokens := st.totalTokens + cfg.TokenCounter msg.content } := by
    constructor
    · simp [h1]
    · simp [h2]
  unfold simpleAdd
  simp only
  have htrim : ∀ st', simpleInvariant st' →
      simpleInvariant (trimToLimits cfg st') := by
    intro st' h'
    have hct := countTrim_inv cfg st' h'
    obtain ⟨g1, g2⟩ := hct
    have := trimTokensLoop_inv cfg.MaxTokens (countTrim cfg st').messages
      (countTrim cfg st').tokenCounts (countTrim cfg st').totalTokens g1 g2
    exact this
  cases summarizer with
  | none => exact htrim _ happ
  | some summ =>
      split_ifs with h3 h4
      · exact htrim _ (summarizeOldMessages_inv cfg (some summ) _ happ)
      · exact htrim _ happ
      · exact htrim _ happ

/-- C6: the per-turn cost tally has exactly one entry per stored turn and
the cached total equals the tally's sum, after construction, after any
`Add` (including its internal summarization and trimming), and after
`Clear`. -/
theorem costTally_invariant :
    simpleInvariant newSimple ∧
    (∀ cfg summarizer st msg, simpleInvariant st →
      simpleInvariant (simpleAdd cfg summarizer st msg)) ∧
    (∀ st, simpleInvariant (clearSimple st)) :=
  ⟨⟨rfl, rfl⟩, fun cfg summarizer st msg h => simpleAdd_inv cfg summarizer st msg h,
   fun _ => ⟨rfl, rfl⟩⟩

/-- C6 witness: the invariant holds concretely after one `Add` to a fresh
buffer. -/
theorem costTally_invariant_witness :
    simpleInvariant (simpleAdd demoCfgCount none newSimple (demoMsg 1)) :=
  costTally_invariant.2.1 demoCfgCount none newSimple (demoMsg 1) ⟨rfl, rfl⟩

/-- C8: the cosine similarity of any pair of vectors of which at least one
has zero magnitude is exactly 0, both as computed by `CosineSimilarity` and
as reported by `MemoryStore.Search` for such a pair. -/
theorem zero_vector_similarity :
    (∀ a b : List ℚ, normSq a = 0 ∨ normSq b = 0 → cosineSimilarity a b = 0) ∧
    (∀ (docs : List Document) (q : List ℚ) (k : Nat) (r : SearchResult),
      r ∈ memoryStoreSearch docs q k →
      normSq q = 0 ∨ normSq r.document.Embedding = 0 → r.similarity = 0) := by
  have h1 : ∀ a b : List ℚ, normSq a = 0 ∨ normSq b = 0 →
      cosineSimilarity a b = 0 := by
    intro a b h
    simp only [cosineSimilarity]
    split_ifs with hlen
    · rfl
    · rfl
  refine ⟨h1, ?_⟩
  intro docs q k r hr hz
  rw [memoryStoreSearch] at hr
  split_ifs at hr with he
  · simp at hr
  · have hr' := List.mem_of_mem_take hr
    have hr2 := (List.mergeSort_perm _ _).mem_iff.mp hr'
    obtain ⟨doc, hdoc, rfl⟩ := List.mem_map.mp hr2
    exact h1 q doc.Embedding hz

/-- Helper: the backward walk of `GetMessages` prepends the turns of some
prefix of its reversed input onto the accumulator, adds the matching costs
to the running total, and — once it has accepted at least one turn — never
lets that total exceed the budget. -/
theorem getMessagesLoop_spec (maxT : Int) :
    ∀ (pairs : List (Message × Int)) (tc : Int) (acc : List Message),
      ∃ j, j ≤ pairs.length ∧
        (getMessagesLoop maxT pairs tc acc).1
          = ((pairs.take j).reverse.map Prod.fst) ++ acc ∧
        (getMessagesLoop maxT pairs tc acc).2
          = tc + ((pairs.take j).map Prod.snd).sum ∧
        (j = 0 ∨ (getMessagesLoop maxT pairs tc acc).2 ≤ maxT) := by
  intro pairs
  induction pairs with
  | nil =>
      intro tc acc
      exact ⟨0, by simp, by simp [getMessagesLoop],
        by simp [getMessagesLoop], Or.inl rfl⟩
  | cons p rest ih =>
      intro tc acc
      obtain ⟨m, c⟩ := p
      by_cases h : tc + c > maxT
      · refine ⟨0, by simp, ?_, ?_, Or.inl rfl⟩
        · rw [getMessagesLoop, if_pos h]; simp
        · rw [getMessagesLoop, if_pos h]; simp
      · obtain ⟨j, hj, h1, h2, h3⟩ := ih (tc + c) (m :: acc)
        have hstep : getMessagesLoop maxT ((m, c) :: rest) tc acc
            = getMessagesLoop maxT rest (tc + c) (m :: acc) := by
          rw [getMessagesLoop, if_neg h]
        refine ⟨j + 1, by simpa using Nat.succ_le_succ hj, ?_, ?_, ?_⟩
        · rw [hstep, h1]
          simp [List.take_succ_cons]
        · rw [hstep, h2]
          simp only [List.take_succ_cons, List.map_cons, List.sum_cons]
          omega
        · right
          rcases h3 with h0 | hle
          · rw [hstep, h2, h0]
            simpa using not_lt.mp h
          · rw [hstep]
            exact hle

/-- C1 (amended): `GetMessages(maxCost)` returns a suffix of the stored
history, optionally *followed* (not preceded) by one synthetic trailing
system turn carrying the standing summary, and either it is empty or its
total estimated cost (stored tallies plus, when included, the counted
summary cost) is at most `maxCost` — with the configured default
`MaxTokens` substituted as the budget when `maxCost <= 0`. -/
theorem getMessages_budget (cfg : MemoryConfig) (st : SimpleState)
    (maxCost : Int) (hlen : st.tokenCounts.length = st.messages.length) :
    ∃ (k : Nat) (inc : Bool),
      getMessages cfg st maxCost
        = st.messages.drop k ++ (if inc then [summaryTurn st.summary] else []) ∧
      (getMessages cfg st maxCost = [] ∨
        (st.tokenCounts.drop k).sum
            + (if inc then cfg.TokenCounter st.summary else 0)
          ≤ (if maxCost ≤ 0 then cfg.MaxTokens else maxCost)) := by
  simp only [getMessages]
  set maxT := if maxCost ≤ 0 then cfg.MaxTokens else maxCost with hmaxT
  set Z := st.messages.zip st.tokenCounts with hZ
  have hZlen : Z.length = st.messages.length := by
    simp [hZ, List.length_zip, hlen]
  have hfst : Z.map Prod.fst = st.messages :=
    List.map_fst_zip _ _ (le_of_eq hlen.symm)
  have hsnd : Z.map Prod.snd = st.tokenCounts :=
    List.map_snd_zip _ _ (le_of_eq hlen)
  clear_value maxT Z
  -- convert the loop's reversed-prefix description into a suffix of history
  have hconv : ∀ j, j ≤ Z.length →
      ((Z.reverse.take j).reverse.map Prod.fst
          = st.messages.drop (st.messages.length - j)) ∧
      (((Z.reverse.take j).map Prod.snd).sum
          = (st.tokenCounts.drop (st.messages.length - j)).sum) := by
    intro j hj
    have htr : Z.reverse.take j = (Z.drop (Z.length - j)).reverse :=
      List.take_reverse
    constructor
    · rw [htr, List.reverse_reverse, List.map_drop, hfst, hZlen]
    · rw [htr, List.map_reverse, List.sum_reverse, List.map_drop, hsnd, hZlen]
  by_cases hsum : st.summary ≠ ""
  · rw [if_pos hsum]
    by_cases hfit : cfg.TokenCounter st.summary < maxT
    · rw [if_pos hfit]
      obtain ⟨j, hj, h1, h2, h3⟩ := getMessagesLoop_spec maxT Z.reverse
        (cfg.TokenCounter st.summary) [summaryTurn st.summary]
      rw [List.length_reverse] at hj
      obtain ⟨hc1, hc2⟩ := hconv j hj
      refine ⟨st.messages.length - j, true, ?_, Or.inr ?_⟩
      · rw [h1, hc1]
        simp
      · rcases h3 with h0 | hle
        · subst h0
          have hdrop : st.messages.length - 0 = st.tokenCounts.length := by
            omega
          rw [hdrop, List.drop_length]
          simpa using le_of_lt hfit
        · rw [h2, hc2] at hle
          simp only [if_true]
          omega
    · rw [if_neg hfit]
      obtain ⟨j, hj, h1, h2, h3⟩ := getMessagesLoop_spec maxT Z.reverse 0 []
      rw [List.length_reverse] at hj
      obtain ⟨hc1, hc2⟩ := hconv j hj
      refine ⟨st.messages.length - j, false, ?_, ?_⟩
      · rw [h1, hc1]
        simp
      · rcases h3 with h0 | hle
        · subst h0
          left
          rw [h1]
          simp
        · right
          rw [h2, hc2] at hle
          simp only [Bool.false_eq_true, if_false, add_zero]
          omega
  · rw [if_neg hsum]
    obtain ⟨j, hj, h1, h2, h3⟩ := getMessagesLoop_spec maxT Z.reverse 0 []
    rw [List.length_reverse] at hj
    obtain ⟨hc1, hc2⟩ := hconv j hj
    refine ⟨st.messages.length - j, false, ?_, ?_⟩
    · rw [h1, hc1]
      simp
    · rcases h3 with h0 | hle
      · subst h0
        left
        rw [h1]
        simp
      · right
        rw [h2, hc2] at hle
        simp only [Bool.false_eq_true, if_false, add_zero]
        omega

/-- C1 witness: on a buffer with one stored turn of cost 1, a standing
summary and budget 50, the result is a suffix-plus-optional-trailing-summary
shape within budget. -/
theorem getMessages_budget_witness :
    ∃ (k : Nat) (inc : Bool),
      getMessages cexCfg cexState 50
        = cexState.messages.drop k
            ++ (if inc then [summaryTurn cexState.summary] else []) ∧
      (getMessages cexCfg cexState 50 = [] ∨
        (cexState.tokenCounts.drop k).sum
            + (if inc then cexCfg.TokenCounter cexState.summary else 0)
          ≤ (if (50 : Int) ≤ 0 then cexCfg.MaxTokens else 50)) :=
  getMessages_budget cexCfg cexState 50 rfl

/-- C1 counterexample: with one stored turn and a standing summary, the
result is `[turn, summary-turn]` — the synthetic summary turn trails the
suffix, so the claimed "synthetic *leading* system turn" shape (summary
first, then a suffix of history) does not hold. -/
theorem getMessages_summary_not_leading :
    ¬ ∃ k, getMessages cexCfg cexState 100 = cexState.messages.drop k ∨
        getMessages cexCfg cexState 100
          = summaryTurn cexState.summary :: cexState.messages.drop k := by
  have hres : getMessages cexCfg cexState 100
      = [⟨RoleUser, "hi"⟩, summaryTurn "s"] := by decide
  have hm : cexState.messages = [⟨RoleUser, "hi"⟩] := rfl
  have hs : cexState.summary = "s" := rfl
  rintro ⟨k, hk | hk⟩
  · rw [hres, hm] at hk
    cases k with
    | zero => exact absurd hk (by decide)
    | succ n =>
        simp only [List.drop_succ_cons, List.drop_nil] at hk
        exact absurd hk (by decide)
  · rw [hres, hm, hs] at hk
    cases k with
    | zero => exact absurd hk (by decide)
    | succ n =>
        simp only [List.drop_succ_cons, List.drop_nil] at hk
        exact absurd hk (by decide)

/-- C8 witness: a zero query vector yields similarity exactly 0, and the
result `Search` reports for a stored zero vector carries similarity 0. -/
theorem zero_vector_similarity_witness :
    cosineSimilarity [0, 0] [3, 4] = 0 ∧
    (SearchResult.mk ⟨"1", "hi", [0], []⟩ (cosineSimilarity [1] [0])).similarity
      = 0 :=
  ⟨zero_vector_similarity.1 [0, 0] [3, 4] (Or.inl (by simp [normSq])),
   zero_vector_similarity.2 [⟨"1", "hi", [0], []⟩] [1] 1 _
     (by simp [memoryStoreSearch, List.mergeSort_singleton])
     (Or.inr (by simp [normSq]))⟩

/-- Helper: a key is in the dedup loop's `seen` set exactly when it was
already seen beforehand or occurs among the processed messages' keys. -/
theorem mergeDedupLoop_seen :
    ∀ (msgs : List Message) (seen : List String) (result : List Message)
      (s : String),
      s ∈ (mergeDedupLoop seen result msgs).1 ↔
        s ∈ seen ∨ s ∈ msgs.map (fun m => dedupKey m.content) := by
  intro msgs
  induction msgs with
  | nil => intro seen result s; simp [mergeDedupLoop]
  | cons m rest ih =>
      intro seen result s
      simp only [mergeDedupLoop]
      by_cases h : dedupKey m.content ∈ seen
      · rw [if_pos h, ih]
        simp only [List.map_cons, List.mem_cons]
        constructor
        · rintro (hs | hs)
          · exact Or.inl hs
          · exact Or.inr (Or.inr hs)
        · rintro (hs | hs | hs)
          · exact Or.inl hs
          · exact Or.inl (hs ▸ h)
          · exact Or.inr hs
      · rw [if_neg h, ih]
        simp only [List.map_cons, List.mem_cons]
        tauto

/-- Helper: the dedup loop appends, to the accumulated result, the
first-seen representative of every not-yet-seen key, in input order. -/
theorem mergeDedupLoop_result :
    ∀ (msgs : List Message) (seen : List String) (result : List Message),
      (mergeDedupLoop seen result msgs).2
        = result ++ keepFirstByKey
            (msgs.filter (fun m => decide (dedupKey m.content ∉ seen))) := by
  intro msgs
  induction msgs with
  | nil => intro seen result; simp [mergeDedupLoop, keepFirstByKey]
  | cons m rest ih =>
      intro seen result
      simp only [mergeDedupLoop]
      by_cases h : dedupKey m.content ∈ seen
      · rw [if_pos h, ih]
        have hp : (decide (dedupKey m.content ∉ seen)) = false := by
          simp [h]
        rw [List.filter_cons, hp]
        simp
      · rw [if_neg h, ih]
        have hp : (decide (dedupKey m.content ∉ seen)) = true := by
          simp [h]
        rw [List.filter_cons, hp]
        simp only [if_true]
        rw [keepFirstByKey, List.append_assoc, List.singleton_append]
        congr 3
        rw [List.filter_filter]
        apply List.filter_congr
        intro x _
        rw [Bool.and_comm, ← Bool.decide_and, decide_eq_decide]
        simp only [List.mem_cons, not_or]
        tauto

/-- Helper: `keepFirstByKey` distributes over append, filtering the second
list down to keys absent from the first. -/
theorem keepFirstByKey_append :
    ∀ l1 l2 : List Message,
      keepFirstByKey (l1 ++ l2)
        = keepFirstByKey l1
          ++ keepFirstByKey (l2.filter (fun m =>
              decide (dedupKey m.content
                ∉ l1.map (fun x => dedupKey x.content)))) := by
  intro l1
  induction l1 using keepFirstByKey.induct with
  | case1 =>
      intro l2
      simp [keepFirstByKey]
  | case2 m rest ih =>
      intro l2
      rw [List.cons_append, keepFirstByKey, keepFirstByKey]
      simp only [List.cons_append]
      congr 1
      rw [List.filter_append, ih]
      congr 2
      rw [List.filter_filter]
      apply List.filter_congr
      intro x _
      rw [← Bool.decide_and, decide_eq_decide]
      simp only [List.map_cons, List.mem_cons, List.mem_map, List.mem_filter,
        not_or, decide_eq_true_eq]
      constructor
      · rintro ⟨hnf, hne⟩
        refine ⟨hne, ?_⟩
        rintro ⟨y, hy, hky⟩
        exact hnf ⟨y, ⟨hy, by rw [hky]; exact hne⟩, hky⟩
      · rintro ⟨hne, hnr⟩
        refine ⟨?_, hne⟩
        rintro ⟨y, ⟨hy, _⟩, hky⟩
        exact hnr ⟨y, hy, hky⟩

/-- Helper: `keepFirstByKey` only emits messages of its input. -/
theorem keepFirstByKey_subset :
    ∀ (l : List Message) (m : Message), m ∈ keepFirstByKey l → m ∈ l := by
  intro l
  induction l using keepFirstByKey.induct with
  | case1 => intro m hm; simp [keepFirstByKey] at hm
  | case2 m0 rest ih =>
      intro m hm
      rw [keepFirstByKey, List.mem_cons] at hm
      rcases hm with rfl | hm
      · exact List.mem_cons_self _ _
      · exact List.mem_cons_of_mem _ (List.mem_of_mem_filter (ih m hm))

/-- Helper: the keys of `keepFirstByKey`'s output are pairwise distinct. -/
theorem keepFirstByKey_keys_nodup :
    ∀ l : List Message,
      ((keepFirstByKey l).map (fun m => dedupKey m.content)).Nodup := by
  intro l
  induction l using keepFirstByKey.induct with
  | case1 => simp [keepFirstByKey]
  | case2 m0 rest ih =>
      rw [keepFirstByKey, List.map_cons, List.nodup_cons]
      refine ⟨?_, ih⟩
      rintro hmem
      obtain ⟨y, hy, hky⟩ := List.mem_map.mp hmem
      have hyf := keepFirstByKey_subset _ y hy
      have := (List.mem_filter.mp hyf).2
      simp only [decide_eq_true_eq] at this
      exact this hky

/-- Helper: every input key is represented in `keepFirstByKey`'s output. -/
theorem keepFirstByKey_keys_mem :
    ∀ (l : List Message) (m : Message), m ∈ l →
      dedupKey m.content
        ∈ (keepFirstByKey l).map (fun x => dedupKey x.content) := by
  intro l
  induction l using keepFirstByKey.induct with
  | case1 => intro m hm; simp at hm
  | case2 m0 rest ih =>
      intro m hm
      rw [keepFirstByKey, List.map_cons, List.mem_cons]
      by_cases hk : dedupKey m.content = dedupKey m0.content
      · exact Or.inl hk
      · rcases List.mem_cons.mp hm with rfl | hmr
        · exact Or.inl rfl
        · refine Or.inr (ih m ?_)
          rw [List.mem_filter]
          exact ⟨hmr, by simpa using hk⟩

/-- C7: the success-path merge of `GetRelevant` emits the recent list first
and then the relevant list, keeping for each first-100-character content key
only the first-seen message: the output equals `keepFirstByKey` of the
concatenation, its keys are pairwise distinct, and every input key is
carried by exactly one emitted message. -/
theorem getRelevant_dedup_merge :
    ∀ recentMsgs relevantMsgs : List Message,
      getRelevant recentMsgs (.ok relevantMsgs)
        = keepFirstByKey (recentMsgs ++ relevantMsgs) ∧
      ((getRelevant recentMsgs (.ok relevantMsgs)).map
          (fun m => dedupKey m.content)).Nodup ∧
      (∀ m ∈ recentMsgs ++ relevantMsgs,
        ((getRelevant recentMsgs (.ok relevantMsgs)).map
            (fun x => dedupKey x.content)).count (dedupKey m.content) = 1) := by
  intro recent relevant
  have hmain : getRelevant recent (.ok relevant)
      = keepFirstByKey (recent ++ relevant) := by
    simp only [getRelevant, getRelevantMerge]
    rw [mergeDedupLoop_result, mergeDedupLoop_result, keepFirstByKey_append]
    simp only [List.nil_append]
    congr 1
    · congr 1
      simp
    · congr 1
      apply List.filter_congr
      intro x _
      rw [decide_eq_decide]
      rw [not_iff_not]
      rw [mergeDedupLoop_seen]
      simp
  refine ⟨hmain, ?_, ?_⟩
  · rw [hmain]
    exact keepFirstByKey_keys_nodup _
  · intro m hm
    rw [hmain]
    exact List.count_eq_one_of_mem (keepFirstByKey_keys_nodup _)
      (keepFirstByKey_keys_mem _ m hm)

/-- C7 witness: at a concrete pair of lists sharing the content "dup", the
merge equals the first-seen dedup of the concatenation, and the shared key
is emitted exactly once. -/
theorem getRelevant_dedup_merge_witness :
    getRelevant [⟨RoleUser, "dup"⟩, ⟨RoleUser, "solo"⟩]
        (.ok [⟨RoleAssistant, "dup"⟩, ⟨RoleAssistant, "other"⟩])
      = keepFirstByKey ([⟨RoleUser, "dup"⟩, ⟨RoleUser, "solo"⟩]
          ++ [⟨RoleAssistant, "dup"⟩, ⟨RoleAssistant, "other"⟩]) ∧
    ((getRelevant [⟨RoleUser, "dup"⟩, ⟨RoleUser, "solo"⟩]
        (.ok [⟨RoleAssistant, "dup"⟩, ⟨RoleAssistant, "other"⟩])).map
          (fun x => dedupKey x.content)).count
        (dedupKey (Message.mk RoleAssistant "dup").content) = 1 :=
  ⟨(getRelevant_dedup_merge _ _).1,
   (getRelevant_dedup_merge _ _).2.2 (Message.mk RoleAssistant "dup")
     (by decide)⟩

end SimpleAI
